import Mathlib

/-!
Verification development for the File_Synthesizer repository (app_file.py).

The Python source is shallowly embedded below.  Strings are modelled as
`List Char` (Python `str` values produced by UTF-8 decoding are sequences of
Unicode scalar values, which is exactly what `Char` ranges over), and byte
strings as `List Nat` with each element below 256.  Recursions that consume a
variable number of characters per step are written with an explicit fuel
argument so that they are structural and evaluate by `rfl`; the fuel is
instantiated with the length of the input, which every step strictly
decreases, so the fuel-exhaustion branch is never reached from the wrappers.
-/

/-- The whitespace class used by the Python regular expressions `\s` and by
`str.strip` in `app_file.py`, restricted to the ASCII range (every input
appearing in the source and in the scenarios is ASCII): space, tab, newline,
carriage return, vertical tab, form feed. -/
def isPySpace (c : Char) : Bool :=
  c = ' ' || c = '\t' || c = '\n' || c = '\r' || c = '\x0b' || c = '\x0c'

/-- Python `str.strip()` (app_file.py line 109): remove leading and trailing
whitespace. -/
def pyStrip (l : List Char) : List Char :=
  ((l.dropWhile isPySpace).reverse.dropWhile isPySpace).reverse

/-- The opening delimiter marker of the response payload, in lower case. -/
def markerLower : List Char := "<markdown>".toList

/-- The search of `re.search(r"<markdown>(.*)", result, re.IGNORECASE |
re.DOTALL)` (app_file.py line 107): scan left to right for the first position
where the marker occurs case-insensitively, and return the capture of `(.*)`,
which under DOTALL is everything from just after the marker to the end of the
string.  Returns `none` when the marker does not occur (the `else` branch at
line 113). -/
def findAfterMarker : List Char → Option (List Char)
  | [] => none
  | c :: cs =>
    if markerLower.isPrefixOf ((c :: cs).map Char.toLower) then
      some ((c :: cs).drop markerLower.length)
    else
      findAfterMarker cs

/-- One attempted match of the pattern `\s*>\s*` at a position where the
MULTILINE anchor `^` holds (app_file.py line 111).  `\s*` is greedy and `>` is
not whitespace, so the first `\s*` consumes the maximal whitespace run, which
must be followed by `>`, and the second `\s*` consumes the maximal whitespace
run after the `>`.  Returns the remainder after the match together with
whether the next scan position is again at a line start in the original
string, i.e. whether the last consumed character is a newline. -/
def matchQuote (l : List Char) : Option (List Char × Bool) :=
  match l.dropWhile isPySpace with
  | '>' :: r2 =>
    some (r2.dropWhile isPySpace, (r2.takeWhile isPySpace).getLast? == some '\n')
  | _ => none

/-- The scan of `re.sub(r"^\s*>\s*", "", key_ideas, flags=re.MULTILINE)`
(app_file.py line 111): walk the string left to right; at every position where
`^` holds (start of string, or directly after a newline of the original
string) try the pattern and drop the matched characters, otherwise emit the
character.  `fuel` is consumed once per step; each step removes at least one
character, so `fuel = length` suffices. -/
def subQuoteF : Nat → List Char → Bool → List Char
  | _, [], _ => []
  | 0, s, _ => s
  | fuel + 1, c :: cs, atStart =>
    if atStart then
      match matchQuote (c :: cs) with
      | some (rest, nextStart) => subQuoteF fuel rest nextStart
      | none => c :: subQuoteF fuel cs (c == '\n')
    else
      c :: subQuoteF fuel cs (c == '\n')

/-- Block quote removal pass of app_file.py line 111, starting at the
beginning of the string (where `^` holds). -/
def subQuote (s : List Char) : List Char :=
  subQuoteF s.length s true

/-- The response parsing phase of `get_key_ideas` (app_file.py lines
107-113): search for the opening marker; on success take everything after it,
strip surrounding whitespace, and remove block quote markers; on failure
return `None`. -/
def parseResponse (result : List Char) : Option (List Char) :=
  match findAfterMarker result with
  | some tail => some (subQuote (pyStrip tail))
  | none => none

example : parseResponse ("<markdown>\nHello\n</markdown>".toList)
    = some ("Hello\n</markdown>".toList) := by decide

example : parseResponse ("no markers here".toList) = none := by decide

example : parseResponse ("<MARKDOWN>\n> quoted line\nplain line\n</markdown>".toList)
    = some ("quoted line\nplain line\n</markdown>".toList) := by decide

/-- The scan of Python `str.replace(old, new)` for a nonempty `old` (the one
call in app_file.py, line 101, has `old = "{file_text}"`): walk the string
left to right; wherever `old` occurs, emit `new` and continue after the
occurrence, otherwise emit one character.  This replaces every non-overlapping
occurrence, left to right, and never rescans the emitted `new`.  `fuel` is
consumed once per step; each step removes at least one character, so
`fuel = length` suffices. -/
def replaceF (old new : List Char) : Nat → List Char → List Char
  | _, [] => []
  | 0, s => s
  | fuel + 1, c :: cs =>
    if old.isPrefixOf (c :: cs) then
      new ++ replaceF old new fuel ((c :: cs).drop old.length)
    else
      c :: replaceF old new fuel cs

/-- Python `s.replace(old, new)` for nonempty `old`. -/
def pyReplace (s old new : List Char) : List Char :=
  replaceF old new s.length s

/-- The placeholder token of the prompt template (app_file.py lines 36 and
101). -/
def fileTextToken : List Char := "{file_text}".toList

/-- Prompt assembly, app_file.py line 101:
`prompt = prompt.replace("{file_text}", file_text)`. -/
def assemble (template file_text : List Char) : List Char :=
  pyReplace template fileTextToken file_text

/-- Number of positions of `s` at which `old` occurs as a substring. -/
def countOcc (old : List Char) : List Char → Nat
  | [] => 0
  | c :: cs => (if old.isPrefixOf (c :: cs) then 1 else 0) + countOcc old cs

example : assemble ("Text: {file_text}".toList) ("abc".toList) = "Text: abc".toList := by decide

example : assemble ("{file_text} and {file_text}".toList) ("abc".toList)
    = "abc and abc".toList := by decide

example : countOcc fileTextToken ("{file_text} and {file_text}".toList) = 2 := by decide

theorem isPrefixOf_append_self : ∀ (l b : List Char), l.isPrefixOf (l ++ b) = true := by
  intro l b
  simp

theorem eq_append_drop_of_isPrefixOf :
    ∀ (l s : List Char), l.isPrefixOf s = true → s = l ++ s.drop l.length := by
  intro l s h
  rw [ List.isPrefixOf_iff_prefix] at h
  obtain ⟨t, rfl⟩ := h
  rw [List.drop_left]

theorem countOcc_le_append : ∀ (a b : List Char) (old : List Char),
    countOcc old b ≤ countOcc old (a ++ b) := by
  intro a b old
  induction a with
  | nil => simp
  | cons c cs ih =>
    calc countOcc old b ≤ countOcc old (cs ++ b) := ih
    _ ≤ countOcc old (c :: (cs ++ b)) := by
        simp only [countOcc]; omega
    _ = countOcc old (c :: cs ++ b) := rfl

theorem countOcc_cons (old : List Char) (c : Char) (cs : List Char) :
    countOcc old (c :: cs)
      = (if old.isPrefixOf (c :: cs) = true then 1 else 0) + countOcc old cs := rfl

theorem replaceF_cons (old new : List Char) (f : Nat) (c : Char) (cs : List Char) :
    replaceF old new (f + 1) (c :: cs)
      = if old.isPrefixOf (c :: cs) = true then
          new ++ replaceF old new f ((c :: cs).drop old.length)
        else
          c :: replaceF old new f cs := rfl

theorem countOcc_append_marker (o : Char) (os : List Char) :
    ∀ (a b : List Char),
    1 + countOcc (o :: os) b ≤ countOcc (o :: os) (a ++ (o :: os) ++ b) := by
  intro a b
  induction a with
  | nil =>
    have hp : (o :: os) <+: (o :: (os ++ b)) := ⟨b, by simp⟩
    have h2 := countOcc_le_append os b (o :: os)
    simp [countOcc, hp]
    omega
  | cons c cs ih =>
    have : countOcc (o :: os) (cs ++ (o :: os) ++ b)
        ≤ countOcc (o :: os) (c :: (cs ++ (o :: os) ++ b)) := by
      simp only [countOcc]; omega
    simpa using Nat.le_trans ih this

theorem replaceF_of_countOcc_zero (old new : List Char) :
    ∀ (fuel : Nat) (s : List Char), countOcc old s = 0 → s.length ≤ fuel →
      replaceF old new fuel s = s := by
  intro fuel
  induction fuel with
  | zero =>
    intro s h hl
    cases s with
    | nil => rfl
    | cons c cs => simp at hl
  | succ f ih =>
    intro s h hl
    cases s with
    | nil => rfl
    | cons c cs =>
      rw [countOcc_cons] at h
      have hnp : old.isPrefixOf (c :: cs) = false := by
        cases hp : old.isPrefixOf (c :: cs) with
        | false => rfl
        | true => rw [hp] at h; simp at h
      rw [hnp] at h
      simp only [Bool.false_eq_true, if_false, Nat.zero_add] at h
      rw [replaceF_cons, hnp]
      simp only [Bool.false_eq_true, if_false]
      rw [ih cs h (by simp at hl; omega)]

theorem replaceF_single (o : Char) (os new : List Char) :
    ∀ (pre post : List Char) (fuel : Nat),
      countOcc (o :: os) (pre ++ (o :: os) ++ post) = 1 →
      (pre ++ (o :: os) ++ post).length ≤ fuel →
      replaceF (o :: os) new fuel (pre ++ (o :: os) ++ post) = pre ++ new ++ post := by
  intro pre
  induction pre with
  | nil =>
    intro post fuel h hl
    simp only [List.nil_append, List.cons_append] at h hl ⊢
    cases fuel with
    | zero => simp at hl
    | succ f =>
      have hp : (o :: os).isPrefixOf (o :: (os ++ post)) = true := by
        simp
      rw [replaceF_cons, hp]
      simp only [if_true]
      rw [countOcc_cons, hp] at h
      simp only [if_true] at h
      have h0 : countOcc (o :: os) (os ++ post) = 0 := by omega
      have hpost : countOcc (o :: os) post = 0 := by
        have := countOcc_le_append os post (o :: os)
        omega
      have hdrop : (o :: (os ++ post)).drop (o :: os).length = post := by
        simp only [List.length_cons, List.drop_succ_cons]
        exact List.drop_left os post
      rw [hdrop]
      rw [replaceF_of_countOcc_zero (o :: os) new f post hpost (by simp at hl; omega)]
  | cons c pre ih =>
    intro post fuel h hl
    simp only [List.cons_append] at h hl ⊢
    have hge := countOcc_append_marker o os pre post
    have hnp : (o :: os).isPrefixOf (c :: (pre ++ (o :: os) ++ post)) = false := by
      cases hp : (o :: os).isPrefixOf (c :: (pre ++ (o :: os) ++ post)) with
      | false => rfl
      | true =>
        rw [countOcc_cons, hp] at h
        simp only [if_true] at h
        simp only [List.cons_append, List.append_assoc] at h hge
        omega
    cases fuel with
    | zero => simp at hl
    | succ f =>
      rw [countOcc_cons, hnp] at h
      simp only [Bool.false_eq_true, if_false, Nat.zero_add] at h
      rw [replaceF_cons, hnp]
      simp only [Bool.false_eq_true, if_false]
      rw [ih post f h (by simp at hl ⊢; omega)]

theorem replaceF_double (o : Char) (os new : List Char) :
    ∀ (pre mid post : List Char) (fuel : Nat),
      countOcc (o :: os) (pre ++ (o :: os) ++ mid ++ (o :: os) ++ post) = 2 →
      (pre ++ (o :: os) ++ mid ++ (o :: os) ++ post).length ≤ fuel →
      replaceF (o :: os) new fuel (pre ++ (o :: os) ++ mid ++ (o :: os) ++ post)
        = pre ++ new ++ mid ++ new ++ post := by
  intro pre
  induction pre with
  | nil =>
    intro mid post fuel h hl
    simp only [List.nil_append, List.cons_append, List.append_assoc] at h hl ⊢
    cases fuel with
    | zero => simp at hl
    | succ f =>
      have hp : (o :: os).isPrefixOf (o :: (os ++ (mid ++ o :: (os ++ post)))) = true := by
        simp
      rw [replaceF_cons, hp]
      simp only [if_true]
      rw [countOcc_cons, hp] at h
      simp only [if_true] at h
      have hub := countOcc_le_append os (mid ++ o :: (os ++ post)) (o :: os)
      have hlb := countOcc_append_marker o os mid post
      simp only [List.cons_append, List.append_assoc] at hlb
      have hmid1 : countOcc (o :: os) (mid ++ o :: (os ++ post)) = 1 := by omega
      have hdrop : (o :: (os ++ (mid ++ o :: (os ++ post)))).drop (o :: os).length
          = mid ++ o :: (os ++ post) := by
        simp only [List.length_cons, List.drop_succ_cons]
        exact List.drop_left os (mid ++ o :: (os ++ post))
      rw [hdrop]
      have hrec := replaceF_single o os new mid post f
        (by simp only [List.cons_append, List.append_assoc]; exact hmid1)
        (by simp only [List.length_append, List.length_cons] at hl ⊢; omega)
      simp only [List.cons_append, List.append_assoc] at hrec
      rw [hrec]
  | cons c pre ih =>
    intro mid post fuel h hl
    simp only [List.cons_append] at h hl ⊢
    have hge1 := countOcc_append_marker o os pre (mid ++ (o :: os) ++ post)
    have hge2 := countOcc_append_marker o os mid post
    have hnp : (o :: os).isPrefixOf
        (c :: (pre ++ (o :: os) ++ mid ++ (o :: os) ++ post)) = false := by
      cases hp : (o :: os).isPrefixOf
          (c :: (pre ++ (o :: os) ++ mid ++ (o :: os) ++ post)) with
      | false => rfl
      | true =>
        rw [countOcc_cons, hp] at h
        simp only [if_true] at h
        simp only [List.cons_append, List.append_assoc] at h hge1 hge2
        omega
    cases fuel with
    | zero => simp at hl
    | succ f =>
      rw [countOcc_cons, hnp] at h
      simp only [Bool.false_eq_true, if_false, Nat.zero_add] at h
      rw [replaceF_cons, hnp]
      simp only [Bool.false_eq_true, if_false]
      rw [ih mid post f h (by simp at hl ⊢; omega)]

theorem matchQuote_nested (cs : List Char) :
    matchQuote ('>' :: '>' :: cs) = some ('>' :: cs, false) := rfl

theorem subQuoteF_no_newline :
    ∀ (fuel : Nat) (cs : List Char), '\n' ∉ cs → cs.length ≤ fuel →
      subQuoteF fuel cs false = cs := by
  intro fuel
  induction fuel with
  | zero =>
    intro cs h hl
    cases cs with
    | nil => rfl
    | cons c cs => simp at hl
  | succ f ih =>
    intro cs h hl
    cases cs with
    | nil => rfl
    | cons c cs =>
      have hc : (c == '\n') = false := by
        have : c ≠ '\n' := fun e => h (e ▸ List.mem_cons_self c cs)
        simpa using this
      show c :: subQuoteF f cs (c == '\n') = c :: cs
      rw [hc, ih cs (fun hm => h (List.mem_cons_of_mem c hm)) (by simp at hl; omega)]

theorem subQuote_nested_eq (cs : List Char) :
    subQuote ('>' :: '>' :: cs) = '>' :: subQuoteF cs.length cs false := rfl

/-- Continuation byte test for UTF-8: `0x80 <= b < 0xC0`. -/
def isCont (b : Nat) : Bool := 0x80 ≤ b && b < 0xC0

/-- Strict UTF-8 decoding of a byte sequence, as performed by Python
`bytes.decode("utf-8")` in app_file.py line 148.  Follows the UTF-8
specification exactly: one- to four-byte sequences, with overlong encodings
(lead bytes `0xC0`/`0xC1`, and out-of-range continuation bytes after `0xE0`
and `0xF0`), surrogate code points (`0xED` with a second byte at or above
`0xA0`), code points above `0x10FFFF` (lead bytes above `0xF4`, and `0xF4`
with a second byte at or above `0x90`) and truncated sequences all rejected.
Returns `none` exactly when Python raises `UnicodeDecodeError`. -/
def utf8DecodeStep (b : Nat) (bs : List Nat) : Option (Nat × List Nat) :=
  if b < 0x80 then some (b, bs)
  else if b < 0xC2 then none
  else if b < 0xE0 then
    match bs with
    | b1 :: bs1 =>
      if isCont b1 then some ((b - 0xC0) * 0x40 + (b1 - 0x80), bs1) else none
    | [] => none
  else if b < 0xF0 then
    match bs with
    | b1 :: b2 :: bs2 =>
      if (if b = 0xE0 then 0xA0 ≤ b1 && b1 < 0xC0
          else if b = 0xED then 0x80 ≤ b1 && b1 < 0xA0
          else isCont b1) && isCont b2 then
        some ((b - 0xE0) * 0x1000 + (b1 - 0x80) * 0x40 + (b2 - 0x80), bs2)
      else none
    | _ => none
  else if b < 0xF5 then
    match bs with
    | b1 :: b2 :: b3 :: bs3 =>
      if (if b = 0xF0 then 0x90 ≤ b1 && b1 < 0xC0
          else if b = 0xF4 then 0x80 ≤ b1 && b1 < 0x90
          else isCont b1) && isCont b2 && isCont b3 then
        some ((b - 0xF0) * 0x40000 + (b1 - 0x80) * 0x1000 + (b2 - 0x80) * 0x40 + (b3 - 0x80), bs3)
      else none
    | _ => none
  else none

/-- The decoding loop: one scalar value per step.  `fuel` is consumed once per
step and each step consumes at least one byte, so `fuel = length` suffices;
the fuel-exhaustion arm is never reached from the wrapper. -/
def utf8DecodeF : Nat → List Nat → Option (List Char)
  | _, [] => some []
  | 0, _ :: _ => none
  | fuel + 1, b :: bs =>
    match utf8DecodeStep b bs with
    | some (cp, rest) => (utf8DecodeF fuel rest).map (fun s => Char.ofNat cp :: s)
    | none => none

/-- Strict UTF-8 decoding of a whole byte sequence. -/
def utf8Decode (bs : List Nat) : Option (List Char) := utf8DecodeF bs.length bs

/-- The UTF-8 encoding of one Unicode scalar value. -/
def utf8EncodeChar (c : Char) : List Nat :=
  if c.toNat < 0x80 then
    [c.toNat]
  else if c.toNat < 0x800 then
    [0xC0 + c.toNat / 0x40, 0x80 + c.toNat % 0x40]
  else if c.toNat < 0x10000 then
    [0xE0 + c.toNat / 0x1000, 0x80 + (c.toNat / 0x40) % 0x40, 0x80 + c.toNat % 0x40]
  else
    [0xF0 + c.toNat / 0x40000, 0x80 + (c.toNat / 0x1000) % 0x40,
     0x80 + (c.toNat / 0x40) % 0x40, 0x80 + c.toNat % 0x40]

/-- The UTF-8 encoding of a string. -/
def utf8Encode : List Char → List Nat
  | [] => []
  | c :: s => utf8EncodeChar c ++ utf8Encode s

example : utf8Decode [0x48, 0x69] = some ("Hi".toList) := by decide
example : utf8Decode [0xFF] = none := by decide
example : utf8Decode [0xC3, 0xA9] = some ("é".toList) := by decide
example : utf8Decode [0xC0, 0x80] = none := by decide
example : utf8Decode [0xED, 0xA0, 0x80] = none := by decide
example : utf8Decode [0xE2, 0x82, 0xAC] = some ("€".toList) := by decide
example : utf8Decode [0xF0, 0x9F, 0x98, 0x80] = some ("😀".toList) := by decide
example : utf8Decode [0xC3] = none := by decide
example : utf8Encode ("é€".toList) = [0xC3, 0xA9, 0xE2, 0x82, 0xAC] := by decide

theorem char_toNat_ofNat_of_valid {n : Nat} (h : n.isValidChar) :
    (Char.ofNat n).toNat = n := by
  simp only [Char.ofNat]
  rw [dif_pos h]
  rfl

theorem char_valid_nat (c : Char) :
    c.toNat < 0xD800 ∨ (0xDFFF < c.toNat ∧ c.toNat < 0x110000) := c.valid

theorem utf8DecodeStep_one {b : Nat} (bs : List Nat) (h : b < 0x80) :
    utf8DecodeStep b bs = some (b, bs) := by
  unfold utf8DecodeStep
  rw [if_pos h]

theorem utf8DecodeStep_two {b b1 : Nat} (bs : List Nat)
    (h2 : 0xC2 ≤ b) (h3 : b < 0xE0) (hc : isCont b1 = true) :
    utf8DecodeStep b (b1 :: bs) = some ((b - 0xC0) * 0x40 + (b1 - 0x80), bs) := by
  unfold utf8DecodeStep
  rw [if_neg (by omega), if_neg (by omega), if_pos h3]
  simp only [hc, if_true]

theorem utf8DecodeStep_three {b b1 b2 : Nat} (bs : List Nat)
    (h3 : 0xE0 ≤ b) (h4 : b < 0xF0)
    (hc : ((if b = 0xE0 then 0xA0 ≤ b1 && b1 < 0xC0
            else if b = 0xED then 0x80 ≤ b1 && b1 < 0xA0
            else isCont b1) && isCont b2) = true) :
    utf8DecodeStep b (b1 :: b2 :: bs)
      = some ((b - 0xE0) * 0x1000 + (b1 - 0x80) * 0x40 + (b2 - 0x80), bs) := by
  unfold utf8DecodeStep
  rw [if_neg (by omega), if_neg (by omega), if_neg (by omega), if_pos h4]
  simp only [hc, if_true]

theorem utf8DecodeStep_four {b b1 b2 b3 : Nat} (bs : List Nat)
    (h4 : 0xF0 ≤ b) (h5 : b < 0xF5)
    (hc : ((if b = 0xF0 then 0x90 ≤ b1 && b1 < 0xC0
            else if b = 0xF4 then 0x80 ≤ b1 && b1 < 0x90
            else isCont b1) && isCont b2 && isCont b3) = true) :
    utf8DecodeStep b (b1 :: b2 :: b3 :: bs)
      = some ((b - 0xF0) * 0x40000 + (b1 - 0x80) * 0x1000
          + (b2 - 0x80) * 0x40 + (b3 - 0x80), bs) := by
  unfold utf8DecodeStep
  rw [if_neg (by omega), if_neg (by omega), if_neg (by omega), if_neg (by omega),
    if_pos h5]
  simp only [hc, if_true]

theorem utf8DecodeF_cons {fuel b : Nat} {bs rest : List Nat} {cp : Nat}
    (h : utf8DecodeStep b bs = some (cp, rest)) :
    utf8DecodeF (fuel + 1) (b :: bs)
      = (utf8DecodeF fuel rest).map (fun s => Char.ofNat cp :: s) := by
  show (match utf8DecodeStep b bs with
    | some (cp, rest) => (utf8DecodeF fuel rest).map (fun s => Char.ofNat cp :: s)
    | none => none) = _
  rw [h]

theorem utf8DecodeF_encode :
    ∀ (s : List Char) (fuel : Nat), (utf8Encode s).length ≤ fuel →
      utf8DecodeF fuel (utf8Encode s) = some s := by
  intro s
  induction s with
  | nil => intro fuel _; cases fuel <;> rfl
  | cons c s ih =>
    intro fuel hl
    have hv : c.toNat < 0xD800 ∨ (0xDFFF < c.toNat ∧ c.toNat < 0x110000) := char_valid_nat c
    by_cases h1 : c.toNat < 0x80
    · have hshape : utf8Encode (c :: s) = c.toNat :: utf8Encode s := by
        show utf8EncodeChar c ++ utf8Encode s = _
        unfold utf8EncodeChar
        rw [if_pos h1]
        rfl
      rw [hshape] at hl ⊢
      cases fuel with
      | zero => simp at hl
      | succ f =>
        rw [utf8DecodeF_cons (utf8DecodeStep_one (utf8Encode s) h1)]
        rw [ih f (by simp at hl; omega)]
        simp [Char.ofNat_toNat]
    · by_cases h2 : c.toNat < 0x800
      · have hshape : utf8Encode (c :: s)
            = (0xC0 + c.toNat / 0x40) :: (0x80 + c.toNat % 0x40) :: utf8Encode s := by
          show utf8EncodeChar c ++ utf8Encode s = _
          unfold utf8EncodeChar
          rw [if_neg h1, if_pos h2]
          rfl
        rw [hshape] at hl ⊢
        cases fuel with
        | zero => simp at hl
        | succ f =>
          have hstep : utf8DecodeStep (0xC0 + c.toNat / 0x40)
              ((0x80 + c.toNat % 0x40) :: utf8Encode s) = some (c.toNat, utf8Encode s) := by
            rw [utf8DecodeStep_two (utf8Encode s) (by omega) (by omega)
              (by simp [isCont]; omega)]
            simp only [Option.some.injEq, Prod.mk.injEq]
            exact ⟨by omega, trivial⟩
          rw [utf8DecodeF_cons hstep]
          rw [ih f (by simp at hl; omega)]
          simp [Char.ofNat_toNat]
      · by_cases h3 : c.toNat < 0x10000
        · have hshape : utf8Encode (c :: s)
              = (0xE0 + c.toNat / 0x1000) :: (0x80 + (c.toNat / 0x40) % 0x40)
                :: (0x80 + c.toNat % 0x40) :: utf8Encode s := by
            show utf8EncodeChar c ++ utf8Encode s = _
            unfold utf8EncodeChar
            rw [if_neg h1, if_neg h2, if_pos h3]
            rfl
          rw [hshape] at hl ⊢
          cases fuel with
          | zero => simp at hl
          | succ f =>
            have hb2 : isCont (0x80 + c.toNat % 0x40) = true := by simp [isCont]; omega
            have hstep : utf8DecodeStep (0xE0 + c.toNat / 0x1000)
                ((0x80 + (c.toNat / 0x40) % 0x40) :: (0x80 + c.toNat % 0x40) :: utf8Encode s)
                = some (c.toNat, utf8Encode s) := by
              rw [utf8DecodeStep_three (utf8Encode s) (by omega) (by omega) ?hc]
              case hc =>
                by_cases hE : 0xE0 + c.toNat / 0x1000 = 0xE0
                · rw [if_pos hE]
                  simp only [hb2, Bool.and_true, Bool.and_eq_true, decide_eq_true_eq]
                  constructor <;> omega
                · rw [if_neg hE]
                  by_cases hED : 0xE0 + c.toNat / 0x1000 = 0xED
                  · rw [if_pos hED]
                    simp only [hb2, Bool.and_true, Bool.and_eq_true, decide_eq_true_eq]
                    constructor <;> omega
                  · rw [if_neg hED]
                    simp only [isCont, hb2, Bool.and_true, Bool.and_eq_true,
                      decide_eq_true_eq]
                    constructor <;> omega
              simp only [Option.some.injEq, Prod.mk.injEq]
              exact ⟨by omega, trivial⟩
            rw [utf8DecodeF_cons hstep]
            rw [ih f (by simp at hl; omega)]
            simp [Char.ofNat_toNat]
        · have h4 : c.toNat < 0x110000 := by omega
          have hshape : utf8Encode (c :: s)
              = (0xF0 + c.toNat / 0x40000) :: (0x80 + (c.toNat / 0x1000) % 0x40)
                :: (0x80 + (c.toNat / 0x40) % 0x40) :: (0x80 + c.toNat % 0x40)
                :: utf8Encode s := by
            show utf8EncodeChar c ++ utf8Encode s = _
            unfold utf8EncodeChar
            rw [if_neg h1, if_neg h2, if_neg h3]
            rfl
          rw [hshape] at hl ⊢
          cases fuel with
          | zero => simp at hl
          | succ f =>
            have hb2 : isCont (0x80 + (c.toNat / 0x40) % 0x40) = true := by
              simp [isCont]; omega
            have hb3 : isCont (0x80 + c.toNat % 0x40) = true := by simp [isCont]; omega
            have hstep : utf8DecodeStep (0xF0 + c.toNat / 0x40000)
                ((0x80 + (c.toNat / 0x1000) % 0x40) :: (0x80 + (c.toNat / 0x40) % 0x40)
                  :: (0x80 + c.toNat % 0x40) :: utf8Encode s)
                = some (c.toNat, utf8Encode s) := by
              rw [utf8DecodeStep_four (utf8Encode s) (by omega) (by omega) ?hc]
              case hc =>
                by_cases hF0 : 0xF0 + c.toNat / 0x40000 = 0xF0
                · rw [if_pos hF0]
                  simp only [hb2, hb3, Bool.and_true, Bool.and_eq_true, decide_eq_true_eq]
                  constructor <;> omega
                · rw [if_neg hF0]
                  by_cases hF4 : 0xF0 + c.toNat / 0x40000 = 0xF4
                  · rw [if_pos hF4]
                    simp only [hb2, hb3, Bool.and_true, Bool.and_eq_true, decide_eq_true_eq]
                    constructor <;> omega
                  · rw [if_neg hF4]
                    simp only [isCont, hb2, hb3, Bool.and_true, Bool.and_eq_true,
                      decide_eq_true_eq]
                    constructor <;> omega
              simp only [Option.some.injEq, Prod.mk.injEq]
              exact ⟨by omega, trivial⟩
            rw [utf8DecodeF_cons hstep]
            rw [ih f (by simp at hl; omega)]
            simp [Char.ofNat_toNat]

theorem utf8Decode_encode (s : List Char) : utf8Decode (utf8Encode s) = some s :=
  utf8DecodeF_encode s (utf8Encode s).length (Nat.le_refl _)

theorem utf8DecodeStep_sound {b : Nat} {bs rest : List Nat} {cp : Nat}
    (h : utf8DecodeStep b bs = some (cp, rest)) :
    utf8EncodeChar (Char.ofNat cp) ++ rest = b :: bs := by
  unfold utf8DecodeStep at h
  by_cases h1 : b < 0x80
  · rw [if_pos h1] at h
    simp only [Option.some.injEq, Prod.mk.injEq] at h
    obtain ⟨rfl, rfl⟩ := h
    unfold utf8EncodeChar
    rw [char_toNat_ofNat_of_valid (Or.inl (by omega))]
    rw [if_pos h1]
    rfl
  · rw [if_neg h1] at h
    by_cases h2 : b < 0xC2
    · rw [if_pos h2] at h
      exact Option.noConfusion h
    · rw [if_neg h2] at h
      by_cases h3 : b < 0xE0
      · rw [if_pos h3] at h
        cases bs with
        | nil => exact Option.noConfusion h
        | cons b1 bs1 =>
          have h' : (if isCont b1 = true then
              some ((b - 0xC0) * 0x40 + (b1 - 0x80), bs1) else none) = some (cp, rest) := h
          cases hc : isCont b1 with
          | false =>
            rw [hc] at h'
            simp at h'
          | true =>
            rw [hc] at h'
            simp at h'
            obtain ⟨rfl, rfl⟩ := h'
            have hcont : 0x80 ≤ b1 ∧ b1 < 0xC0 := by simpa [isCont] using hc
            unfold utf8EncodeChar
            rw [char_toNat_ofNat_of_valid (Or.inl (by omega))]
            rw [if_neg (by omega), if_pos (by omega)]
            simp only [List.cons_append, List.nil_append, List.cons.injEq]
            refine ⟨by omega, by omega, trivial⟩
      · by_cases h4 : b < 0xF0
        · rw [if_neg h3, if_pos h4] at h
          cases bs with
          | nil => exact Option.noConfusion h
          | cons b1 bs' =>
            cases bs' with
            | nil => exact Option.noConfusion h
            | cons b2 bs2 =>
              have h' : (if ((if b = 0xE0 then 0xA0 ≤ b1 && b1 < 0xC0
                    else if b = 0xED then 0x80 ≤ b1 && b1 < 0xA0
                    else isCont b1) && isCont b2) = true then
                  some ((b - 0xE0) * 0x1000 + (b1 - 0x80) * 0x40 + (b2 - 0x80), bs2)
                  else none) = some (cp, rest) := h
              cases hc : ((if b = 0xE0 then 0xA0 ≤ b1 && b1 < 0xC0
                    else if b = 0xED then 0x80 ≤ b1 && b1 < 0xA0
                    else isCont b1) && isCont b2) with
              | false =>
                rw [hc] at h'
                simp at h'
              | true =>
                rw [hc] at h'
                simp at h'
                obtain ⟨rfl, rfl⟩ := h'
                rw [Bool.and_eq_true] at hc
                obtain ⟨hb1, hb2⟩ := hc
                have hb2c : 0x80 ≤ b2 ∧ b2 < 0xC0 := by simpa [isCont] using hb2
                by_cases hE : b = 0xE0
                · rw [if_pos hE] at hb1
                  have hb1c : 0xA0 ≤ b1 ∧ b1 < 0xC0 := by simpa using hb1
                  subst hE
                  unfold utf8EncodeChar
                  rw [char_toNat_ofNat_of_valid (Or.inl (by omega))]
                  rw [if_neg (by omega), if_neg (by omega), if_pos (by omega)]
                  simp only [List.cons_append, List.nil_append, List.cons.injEq]
                  refine ⟨by omega, by omega, by omega, trivial⟩
                · rw [if_neg hE] at hb1
                  by_cases hED : b = 0xED
                  · rw [if_pos hED] at hb1
                    have hb1c : 0x80 ≤ b1 ∧ b1 < 0xA0 := by simpa using hb1
                    subst hED
                    unfold utf8EncodeChar
                    rw [char_toNat_ofNat_of_valid (Or.inl (by omega))]
                    rw [if_neg (by omega), if_neg (by omega), if_pos (by omega)]
                    simp only [List.cons_append, List.nil_append, List.cons.injEq]
                    refine ⟨by omega, by omega, by omega, trivial⟩
                  · rw [if_neg hED] at hb1
                    have hb1c : 0x80 ≤ b1 ∧ b1 < 0xC0 := by simpa [isCont] using hb1
                    unfold utf8EncodeChar
                    rw [char_toNat_ofNat_of_valid (by
                      rcases Nat.lt_or_ge b 0xED with hlt | hge
                      · exact Or.inl (by omega)
                      · exact Or.inr ⟨by omega, by omega⟩)]
                    rw [if_neg (by omega), if_neg (by omega), if_pos (by omega)]
                    simp only [List.cons_append, List.nil_append, List.cons.injEq]
                    refine ⟨by omega, by omega, by omega, trivial⟩
        · by_cases h5 : b < 0xF5
          · rw [if_neg h3, if_neg h4, if_pos h5] at h
            cases bs with
            | nil => exact Option.noConfusion h
            | cons b1 bs' =>
              cases bs' with
              | nil => exact Option.noConfusion h
              | cons b2 bs'' =>
                cases bs'' with
                | nil => exact Option.noConfusion h
                | cons b3 bs3 =>
                  have h' : (if ((if b = 0xF0 then 0x90 ≤ b1 && b1 < 0xC0
                        else if b = 0xF4 then 0x80 ≤ b1 && b1 < 0x90
                        else isCont b1) && isCont b2 && isCont b3) = true then
                      some ((b - 0xF0) * 0x40000 + (b1 - 0x80) * 0x1000
                        + (b2 - 0x80) * 0x40 + (b3 - 0x80), bs3)
                      else none) = some (cp, rest) := h
                  cases hc : ((if b = 0xF0 then 0x90 ≤ b1 && b1 < 0xC0
                        else if b = 0xF4 then 0x80 ≤ b1 && b1 < 0x90
                        else isCont b1) && isCont b2 && isCont b3) with
                  | false =>
                    rw [hc] at h'
                    simp at h'
                  | true =>
                    rw [hc] at h'
                    simp at h'
                    obtain ⟨rfl, rfl⟩ := h'
                    rw [Bool.and_eq_true, Bool.and_eq_true] at hc
                    obtain ⟨⟨hb1, hb2⟩, hb3⟩ := hc
                    have hb2c : 0x80 ≤ b2 ∧ b2 < 0xC0 := by simpa [isCont] using hb2
                    have hb3c : 0x80 ≤ b3 ∧ b3 < 0xC0 := by simpa [isCont] using hb3
                    by_cases hF0 : b = 0xF0
                    · rw [if_pos hF0] at hb1
                      have hb1c : 0x90 ≤ b1 ∧ b1 < 0xC0 := by simpa using hb1
                      subst hF0
                      unfold utf8EncodeChar
                      rw [char_toNat_ofNat_of_valid (Or.inr ⟨by omega, by omega⟩)]
                      rw [if_neg (by omega), if_neg (by omega), if_neg (by omega)]
                      simp only [List.cons_append, List.nil_append, List.cons.injEq]
                      refine ⟨by omega, by omega, by omega, by omega, trivial⟩
                    · rw [if_neg hF0] at hb1
                      by_cases hF4 : b = 0xF4
                      · rw [if_pos hF4] at hb1
                        have hb1c : 0x80 ≤ b1 ∧ b1 < 0x90 := by simpa using hb1
                        subst hF4
                        unfold utf8EncodeChar
                        rw [char_toNat_ofNat_of_valid (Or.inr ⟨by omega, by omega⟩)]
                        rw [if_neg (by omega), if_neg (by omega), if_neg (by omega)]
                        simp only [List.cons_append, List.nil_append, List.cons.injEq]
                        refine ⟨by omega, by omega, by omega, by omega, trivial⟩
                      · rw [if_neg hF4] at hb1
                        have hb1c : 0x80 ≤ b1 ∧ b1 < 0xC0 := by simpa [isCont] using hb1
                        unfold utf8EncodeChar
                        rw [char_toNat_ofNat_of_valid (Or.inr ⟨by omega, by omega⟩)]
                        rw [if_neg (by omega), if_neg (by omega), if_neg (by omega)]
                        simp only [List.cons_append, List.nil_append, List.cons.injEq]
                        refine ⟨by omega, by omega, by omega, by omega, trivial⟩
          · rw [if_neg h3, if_neg h4, if_neg h5] at h
            exact Option.noConfusion h

theorem utf8DecodeStep_length {b : Nat} {bs rest : List Nat} {cp : Nat}
    (h : utf8DecodeStep b bs = some (cp, rest)) : rest.length ≤ bs.length := by
  have hs := utf8DecodeStep_sound h
  have hlen : (utf8EncodeChar (Char.ofNat cp)).length + rest.length = bs.length + 1 := by
    have := congrArg List.length hs
    simpa [List.length_append] using this
  have hpos : 1 ≤ (utf8EncodeChar (Char.ofNat cp)).length := by
    unfold utf8EncodeChar
    split
    · simp
    · split
      · simp
      · split <;> simp
  omega

theorem utf8DecodeF_cons_none {fuel b : Nat} {bs : List Nat}
    (h : utf8DecodeStep b bs = none) : utf8DecodeF (fuel + 1) (b :: bs) = none := by
  show (match utf8DecodeStep b bs with
    | some (cp, rest) => (utf8DecodeF fuel rest).map (fun s => Char.ofNat cp :: s)
    | none => none) = none
  rw [h]

theorem utf8Encode_of_decodeF :
    ∀ (fuel : Nat) (bs : List Nat) (s : List Char),
      bs.length ≤ fuel → utf8DecodeF fuel bs = some s → utf8Encode s = bs := by
  intro fuel
  induction fuel with
  | zero =>
    intro bs s hl hd
    cases bs with
    | nil =>
      have hd' : some ([] : List Char) = some s := hd
      cases hd'
      rfl
    | cons b bs => simp at hl
  | succ f ih =>
    intro bs s hl hd
    cases bs with
    | nil =>
      have hd' : some ([] : List Char) = some s := hd
      cases hd'
      rfl
    | cons b bs =>
      cases hstep : utf8DecodeStep b bs with
      | none =>
        rw [utf8DecodeF_cons_none hstep] at hd
        exact Option.noConfusion hd
      | some pr =>
        obtain ⟨cp, rest⟩ := pr
        rw [utf8DecodeF_cons hstep] at hd
        cases hrest : utf8DecodeF f rest with
        | none =>
          rw [hrest] at hd
          exact Option.noConfusion hd
        | some s0 =>
          rw [hrest] at hd
          simp at hd
          subst hd
          have hrl : rest.length ≤ bs.length := utf8DecodeStep_length hstep
          have henc := ih rest s0 (by simp at hl; omega) hrest
          show utf8EncodeChar (Char.ofNat cp) ++ utf8Encode s0 = b :: bs
          rw [henc]
          exact utf8DecodeStep_sound hstep

theorem utf8Encode_of_decode {bs : List Nat} {s : List Char}
    (h : utf8Decode bs = some s) : utf8Encode s = bs :=
  utf8Encode_of_decodeF bs.length bs s (Nat.le_refl _) h

/-- The plain-text branch of `process_file` (app_file.py lines 146-153):
`full_text = file_content.decode("utf-8")` inside the `try` block; a
`UnicodeDecodeError` reaches the `except` handler, which shows an error
message and returns `None`. -/
def process_file_txt (file_content : List Nat) : Option (List Char) :=
  utf8Decode file_content

mutual

inductive Html where
  | text : List Char → Html
  | elem : List Char → HtmlList → Html

inductive HtmlList where
  | nil : HtmlList
  | cons : Html → HtmlList → HtmlList

end

mutual

/-- BeautifulSoup `soup.get_text()` on a parsed markup tree (app_file.py
lines 142-143): the concatenation, in document order, of all text nodes of
the tree.  Tag names and attributes never appear in the output, but the text
content of every element, including `script` and `style` elements, does:
`get_text` does not treat any element specially. -/
def getText : Html → List Char
  | Html.text s => s
  | Html.elem _ children => getTextList children

def getTextList : HtmlList → List Char
  | HtmlList.nil => []
  | HtmlList.cons h t => getText h ++ getTextList t

end

mutual

/-- Modelled from the spec: the extraction the specification describes for an
HTML item, with the text of `script` and `style` elements excluded
(spec 4.1: append the extracted human-readable text, script/style and markup
tags excluded).  Used only to compare the specified behaviour with the
embedded source behaviour `getText`. -/
def specGetText : Html → List Char
  | Html.text s => s
  | Html.elem tag children =>
    if tag = "script".toList ∨ tag = "style".toList then []
    else specGetTextList children

def specGetTextList : HtmlList → List Char
  | HtmlList.nil => []
  | HtmlList.cons h t => specGetText h ++ specGetTextList t

end

/-- One item of the parsed EPUB package: either a content document for which
`isinstance(item, ebooklib.epub.EpubHtml)` holds, carrying its markup parsed
by BeautifulSoup, or any other item (image, stylesheet, navigation data),
which the loop at app_file.py lines 140-143 skips. -/
inductive EpubItem where
  | htmlItem : Html → EpubItem
  | otherItem : EpubItem

/-- The accumulation loop of app_file.py lines 138-143: `full_text = ""`,
then for every item of `book.get_items()`, in order, append
`BeautifulSoup(item.get_content(), "html.parser").get_text()` when the item
is an `EpubHtml`. -/
def epubFullText : List EpubItem → List Char → List Char
  | [], acc => acc
  | EpubItem.htmlItem d :: rest, acc => epubFullText rest (acc ++ getText d)
  | EpubItem.otherItem :: rest, acc => epubFullText rest acc

/-- The per-item texts of the HTML items, concatenated in package order. -/
def htmlTexts : List EpubItem → List Char
  | [] => []
  | EpubItem.htmlItem d :: rest => getText d ++ htmlTexts rest
  | EpubItem.otherItem :: rest => htmlTexts rest

/-- Spec-modelled variant of `htmlTexts` built on `specGetText`. -/
def specHtmlTexts : List EpubItem → List Char
  | [] => []
  | EpubItem.htmlItem d :: rest => specGetText d ++ specHtmlTexts rest
  | EpubItem.otherItem :: rest => specHtmlTexts rest

/-- The outcome of `epub.read_epub(temp_file_path)` (app_file.py line 137),
an external collaborator: either the parsed package (its items in internal
order) or a raised exception carrying a message. -/
inductive EpubReadOutcome where
  | ok : List EpubItem → EpubReadOutcome
  | raises : List Char → EpubReadOutcome

/-- `st.error(f"An error occurred: {e}")` (app_file.py line 152). -/
def extractErrMsg (m : List Char) : List Char :=
  "An error occurred: ".toList ++ m

/-- Result of the EPUB branch of `process_file`: the returned value, the
error messages shown, and whether the temporary file was deleted again. -/
structure EpubExtractResult where
  fullText : Option (List Char)
  shown : List (List Char)
  tempFileDeleted : Bool

/-- The EPUB branch of `process_file` (app_file.py lines 131-153).  The
temporary file is created with `delete=False` and written (lines 133-135);
`epub.read_epub` then either returns the package, after which the item loop
runs and `os.unlink(temp_file_path)` (line 145) deletes the temporary file,
or raises, in which case control jumps from line 137 directly to the
`except` handler at lines 151-153 (which shows a message and returns `None`)
and the `os.unlink` call is never executed, so the temporary file stays on
disk. -/
def process_file_epub (read : EpubReadOutcome) : EpubExtractResult :=
  match read with
  | EpubReadOutcome.raises m =>
    { fullText := none, shown := [extractErrMsg m], tempFileDeleted := false }
  | EpubReadOutcome.ok items =>
    { fullText := some (epubFullText items []), shown := [], tempFileDeleted := true }

theorem epubFullText_acc (items : List EpubItem) :
    ∀ (acc : List Char), epubFullText items acc = acc ++ htmlTexts items := by
  induction items with
  | nil => intro acc; simp [epubFullText, htmlTexts]
  | cons it rest ih =>
    intro acc
    cases it with
    | htmlItem d => simp [epubFullText, htmlTexts, ih, List.append_assoc]
    | otherItem => simp [epubFullText, htmlTexts, ih]

/-- The behaviour of the remote collaborator compound
`model.generate_content(prompt)` followed by
`response.candidates[0].content.parts[0].text` (app_file.py lines 103-105),
as a function of the prompt that is sent: either some exception with a
message, or the response text. -/
inductive RemoteOutcome where
  | raises : List Char → RemoteOutcome
  | returns : List Char → RemoteOutcome

/-- The exception raised by `prompt.replace("{file_text}", file_text)` when
`file_text` is `None`: `str.replace` requires a `str` replacement. -/
inductive PyExn where
  | typeError : PyExn

/-- `st.error(f"Error in Gemini API call: {str(e)}")` (app_file.py line
117). -/
def apiErrMsg (m : List Char) : List Char :=
  "Error in Gemini API call: ".toList ++ m

/-- `st.error("Could not extract the lessons.")` (app_file.py line 201). -/
def couldNotMsg : List Char := "Could not extract the lessons.".toList

/-- `st.success("Key lessons extracted!")` (app_file.py line 203). -/
def successMsg : List Char := "Key lessons extracted!".toList

/-- Result of one call of `get_key_ideas`: either an uncaught exception or
the returned value (a string or `None`), together with the error messages it
showed and whether the remote call was reached. -/
structure GKIResult where
  retVal : Except PyExn (Option (List Char))
  shown : List (List Char)
  remoteCalled : Bool

/-- `get_key_ideas(file_text, api_key, prompt)` (app_file.py lines 98-118),
with the remote collaborator as a parameter.  Line 101 substitutes the
extracted text into the prompt template BEFORE the `try` block begins; when
`file_text` is `None` this raises an uncaught `TypeError` and neither the
`try` block nor the remote call is ever reached (`genai.configure` and the
`GenerativeModel` constructor on lines 99-100 perform no network call).
Otherwise the remote call is made with the assembled prompt; if it (or the
response field access) raises, the `except` branch shows an API error
message and returns `None`; if it returns text, the parsing phase runs and
its result (a payload or `None`) is returned. -/
def get_key_ideas (file_text : Option (List Char)) (prompt : List Char)
    (remote : List Char → RemoteOutcome) : GKIResult :=
  match file_text with
  | none =>
    { retVal := Except.error PyExn.typeError, shown := [], remoteCalled := false }
  | some t =>
    match remote (assemble prompt t) with
    | RemoteOutcome.raises m =>
      { retVal := Except.ok none, shown := [apiErrMsg m], remoteCalled := true }
    | RemoteOutcome.returns r =>
      { retVal := Except.ok (parseResponse r), shown := [], remoteCalled := true }

/-- Result of one press of the Extract Lessons button: the outcome of the
handler body (normal completion or an uncaught exception), the messages
shown during it in order, and whether the remote call was reached. -/
structure RunResult where
  outcome : Except PyExn Unit
  shown : List (List Char)
  remoteCalled : Bool

/-- The Extract Lessons flow of the Home page handler (app_file.py lines
190-204): call `get_key_ideas` on the text produced by `process_file`; if it
returns `None`, show the failure message; otherwise show the success message
and render the returned markdown.  An exception raised inside
`get_key_ideas` propagates out of the handler uncaught (there is no
`try` around the call at line 196). -/
def homeExtractRun (full_text : Option (List Char)) (prompt : List Char)
    (remote : List Char → RemoteOutcome) : RunResult :=
  let k := get_key_ideas full_text prompt remote
  match k.retVal with
  | Except.error e =>
    { outcome := Except.error e, shown := k.shown, remoteCalled := k.remoteCalled }
  | Except.ok none =>
    { outcome := Except.ok (), shown := k.shown ++ [couldNotMsg],
      remoteCalled := k.remoteCalled }
  | Except.ok (some ideas) =>
    { outcome := Except.ok (), shown := k.shown ++ [successMsg, ideas],
      remoteCalled := k.remoteCalled }

/-- Claim C1: the spec states that `parse` on
`"<markdown>\nHello\n</markdown>"` returns `"Hello"` and that content at and
past a closing marker is trimmed during post-processing.  The code disagrees:
the regex `<markdown>(.*)` under DOTALL captures to the end of the string, and
neither `strip` nor the block-quote substitution removes the closing
`</markdown>` line, contradicting the comment at app_file.py line 106
("Extract content between markdown tags").  This theorem evaluates the
embedded parser at the failing input: the closing tag survives in the
payload. -/
theorem c1_parse_keeps_closing_tag :
    parseResponse ("<markdown>\nHello\n</markdown>".toList)
      = some ("Hello\n</markdown>".toList)
    ∧ parseResponse ("<markdown>\nHello\n</markdown>".toList)
      ≠ some ("Hello".toList) := by
  exact ⟨by decide, by decide⟩

/-- Claim C9: case-insensitive marker matching and the single block-quote
strip do happen, but the spec scenario result `"quoted line\nplain line"` is
wrong on the code: the closing `</markdown>` line survives (same defect as in
C1).  This theorem evaluates the embedded parser at the failing input. -/
theorem c9_parse_scenario3 :
    parseResponse ("<MARKDOWN>\n> quoted line\nplain line\n</markdown>".toList)
      = some ("quoted line\nplain line\n</markdown>".toList)
    ∧ parseResponse ("<MARKDOWN>\n> quoted line\nplain line\n</markdown>".toList)
      ≠ some ("quoted line\nplain line".toList) := by
  exact ⟨by decide, by decide⟩

/-- Claim C10: the block-quote cleanup removes at most one quote marker from
the start of a line per pass; a line starting with nested markers keeps the
remaining markers: on a payload line `>> ...` exactly one leading `>` is
removed, because after the match the scan resumes at the second `>`, which is
not at a line start of the original string. -/
theorem c10_nested_quote_single_strip (cs : List Char) (h : '\n' ∉ cs) :
    subQuote ('>' :: '>' :: cs) = '>' :: cs := by
  rw [subQuote_nested_eq]
  rw [subQuoteF_no_newline cs.length cs h (Nat.le_refl _)]

/-- Witness for C10 at the concrete line `">> text"`. -/
theorem c10_witness :
    '\n' ∉ " text".toList ∧ subQuote (">> text".toList) = "> text".toList :=
  ⟨by decide, c10_nested_quote_single_strip (" text".toList) (by decide)⟩

/-- Counterexample to claim C2: Python `str.replace` with no count replaces
EVERY occurrence, not only the first.  On the template
`"{file_text} and {file_text}"` with extracted text `"abc"` the code produces
`"abc and abc"`, not the claimed first-occurrence-only result
`"abc and {file_text}"`. -/
theorem c2_counterexample :
    assemble ("{file_text} and {file_text}".toList) ("abc".toList)
      = "abc and abc".toList
    ∧ assemble ("{file_text} and {file_text}".toList) ("abc".toList)
      ≠ "abc and {file_text}".toList := by
  exact ⟨by decide, by decide⟩

/-- Claim C2 as amended: `assemble` performs literal substring substitution
of EVERY non-overlapping occurrence of the placeholder token, left to right,
verbatim and non-recursively (the substituted text is never rescanned, so
occurrences of the token inside the extracted text are not re-expanded).  For
a template with exactly two occurrences, both are replaced. -/
theorem c2_amended_replaces_every_occurrence (pre mid post x : List Char)
    (h : countOcc fileTextToken
      (pre ++ fileTextToken ++ mid ++ fileTextToken ++ post) = 2) :
    assemble (pre ++ fileTextToken ++ mid ++ fileTextToken ++ post) x
      = pre ++ x ++ mid ++ x ++ post := by
  have htok : fileTextToken = '{' :: "file_text\x7d".toList := rfl
  unfold assemble pyReplace
  rw [htok] at h ⊢
  exact replaceF_double '{' ("file_text\x7d".toList) x pre mid post _ h (Nat.le_refl _)

/-- Witness for the amended C2 at a concrete two-occurrence template. -/
theorem c2_witness :
    countOcc fileTextToken
      ("A".toList ++ fileTextToken ++ "-".toList ++ fileTextToken ++ "Z".toList) = 2
    ∧ assemble ("A".toList ++ fileTextToken ++ "-".toList ++ fileTextToken ++ "Z".toList)
        ("xy".toList)
      = "A".toList ++ "xy".toList ++ "-".toList ++ "xy".toList ++ "Z".toList :=
  ⟨by decide, c2_amended_replaces_every_occurrence ("A".toList) ("-".toList)
    ("Z".toList) ("xy".toList) (by decide)⟩

/-- Counterexample to claim C5: on a template with exactly one placeholder
occurrence the assembled prompt need not be free of the placeholder: since
substitution is verbatim and non-recursive, an extracted text that itself
contains the placeholder leaves it in the output.  Template `"A{file_text}B"`
with extracted text `"{file_text}"` assembles to `"A{file_text}B"`, which
contains one occurrence, not zero. -/
theorem c5_counterexample :
    countOcc fileTextToken ("A{file_text}B".toList) = 1
    ∧ countOcc fileTextToken
        (assemble ("A{file_text}B".toList) fileTextToken) = 1 := by
  exact ⟨by decide, by decide⟩

/-- Claim C5 as amended: for a template with exactly one occurrence of the
placeholder, written `pre ++ token ++ post`, the assembled prompt is exactly
`pre ++ x ++ post`: the extracted text appears verbatim at the former
position of the placeholder and the template occurrence itself is always
eliminated.  Zero remaining occurrences is guaranteed only when neither the
extracted text nor the junctions with the surrounding template introduce a
new occurrence. -/
theorem c5_amended_single_substitution (pre post x : List Char)
    (h : countOcc fileTextToken (pre ++ fileTextToken ++ post) = 1) :
    assemble (pre ++ fileTextToken ++ post) x = pre ++ x ++ post := by
  have htok : fileTextToken = '{' :: "file_text\x7d".toList := rfl
  unfold assemble pyReplace
  rw [htok] at h ⊢
  exact replaceF_single '{' ("file_text\x7d".toList) x pre post _ h (Nat.le_refl _)

/-- Witness for the amended C5; this is also spec scenario 4. -/
theorem c5_witness :
    countOcc fileTextToken ("Text: ".toList ++ fileTextToken ++ ([] : List Char)) = 1
    ∧ assemble ("Text: ".toList ++ fileTextToken ++ ([] : List Char)) ("abc".toList)
      = "Text: ".toList ++ "abc".toList ++ ([] : List Char) :=
  ⟨by decide, c5_amended_single_substitution ("Text: ".toList) ([] : List Char)
    ("abc".toList) (by decide)⟩

/-- Claim C3: the spec requires the temporary file used for EPUB parsing to
be deleted on every exit path, including parse failure.  The code deletes it
only on the success path: the file is created with `delete=False`, and the
`os.unlink` call at app_file.py line 145 sits inside the `try` block AFTER
`epub.read_epub`, so when `read_epub` raises, control jumps to the `except`
handler and the temporary file is never deleted, despite the cleanup comment
on line 145.  This theorem evaluates the embedded EPUB branch on a raising
parse (the failing input) and on a successful parse. -/
theorem c3_epub_temp_file_leak (m : List Char) :
    (process_file_epub (EpubReadOutcome.raises m)).tempFileDeleted = false
    ∧ (process_file_epub (EpubReadOutcome.raises m)).fullText = none
    ∧ (process_file_epub (EpubReadOutcome.raises m)).shown = [extractErrMsg m]
    ∧ ∀ items, (process_file_epub (EpubReadOutcome.ok items)).tempFileDeleted = true := by
  exact ⟨rfl, rfl, rfl, fun items => rfl⟩

/-- An HTML content document containing a script element, used to separate
the embedded `get_text` behaviour from the behaviour the spec describes. -/
def scriptDoc : Html :=
  Html.elem ("html".toList)
    (HtmlList.cons
      (Html.elem ("script".toList)
        (HtmlList.cons (Html.text ("var x=1;".toList)) HtmlList.nil))
      (HtmlList.cons
        (Html.elem ("p".toList)
          (HtmlList.cons (Html.text ("Hi".toList)) HtmlList.nil))
        HtmlList.nil))

/-- Counterexample to claim C4: `soup.get_text()` concatenates ALL text
nodes, including those inside `script` and `style` elements, so the code does
not exclude script/style content.  On a one-item EPUB whose document holds a
script element with text `"var x=1;"` and a paragraph `"Hi"`, the code
extracts `"var x=1;Hi"`, while the spec-modelled extraction (script/style
excluded) yields `"Hi"`. -/
theorem c4_counterexample :
    epubFullText [EpubItem.htmlItem scriptDoc] [] = "var x=1;Hi".toList
    ∧ specHtmlTexts [EpubItem.htmlItem scriptDoc] = "Hi".toList
    ∧ epubFullText [EpubItem.htmlItem scriptDoc] []
      ≠ specHtmlTexts [EpubItem.htmlItem scriptDoc] := by
  exact ⟨by decide, by decide, by decide⟩

/-- Claim C4 as amended: for every EPUB input, extraction appends, for each
item recognized as an HTML document, the concatenation of ALL text nodes of
its parsed markup in document order: markup tags are excluded, but the text
content of script and style elements is included, because `get_text` treats
no element specially.  The loop's accumulated result equals the in-order
concatenation of the per-item text. -/
theorem c4_amended_all_text_nodes (items : List EpubItem) :
    epubFullText items [] = htmlTexts items := by
  simpa using epubFullText_acc items []

/-- Counterexample to claim C6: when extraction fails the run does NOT
short-circuit with a reported extraction failure.  `process_file` returns
`None`, and the Extract Lessons handler passes it straight into
`get_key_ideas`, where `prompt.replace("{file_text}", None)` raises an
uncaught `TypeError` before the `try` block: the button run shows no message
at all and ends in an unhandled exception (the remote call is indeed never
reached). -/
theorem c6_counterexample :
    (homeExtractRun none ("P {file_text}".toList)
        (fun _ => RemoteOutcome.returns ("<markdown>ok</markdown>".toList))).outcome
      = Except.error PyExn.typeError
    ∧ (homeExtractRun none ("P {file_text}".toList)
        (fun _ => RemoteOutcome.returns ("<markdown>ok</markdown>".toList))).shown = []
    ∧ (homeExtractRun none ("P {file_text}".toList)
        (fun _ => RemoteOutcome.returns ("<markdown>ok</markdown>".toList))).remoteCalled
      = false := by
  exact ⟨rfl, rfl, rfl⟩

/-- Claim C6 as amended: whenever extraction yields no text, the remote model
call is never invoked — but not through an orchestrator short-circuit: the
run aborts with an uncaught `TypeError` raised by the placeholder
substitution before the remote call is reached (the extraction failure
itself was already reported by the extractor's own error handler at
extraction time). -/
theorem c6_amended_no_remote_call (bs : List Nat) (prompt : List Char)
    (remote : List Char → RemoteOutcome) (h : process_file_txt bs = none) :
    (homeExtractRun (process_file_txt bs) prompt remote).remoteCalled = false
    ∧ (homeExtractRun (process_file_txt bs) prompt remote).outcome
      = Except.error PyExn.typeError := by
  rw [h]
  exact ⟨rfl, rfl⟩

/-- Witness for the amended C6 at the non-UTF-8 input `[0xFF]`. -/
theorem c6_witness :
    process_file_txt [0xFF] = none
    ∧ (homeExtractRun (process_file_txt [0xFF]) ("P".toList)
        (fun _ => RemoteOutcome.returns ("r".toList))).remoteCalled = false :=
  ⟨by decide, (c6_amended_no_remote_call [0xFF] ("P".toList)
    (fun _ => RemoteOutcome.returns ("r".toList)) (by decide)).1⟩

/-- Counterexample to claim C7: no parse-specific error is reported.  When
the model replies without any delimiter marker, `get_key_ideas` returns
`None` with no message of its own and the handler shows only the generic
failure message; when the remote call raises, `get_key_ideas` ALSO returns
`None` and the handler ALSO shows the same generic message (preceded by the
API error message).  The value returned to the caller is identical in the
two situations, and the only message of the parse-failure run also occurs in
the call-failure run, so there is no ParseError distinct from
ModelCallError. -/
theorem c7_counterexample :
    (homeExtractRun (some ("body".toList)) ("P {file_text}".toList)
        (fun _ => RemoteOutcome.returns ("no markers here".toList))).shown
      = [couldNotMsg]
    ∧ (homeExtractRun (some ("body".toList)) ("P {file_text}".toList)
        (fun _ => RemoteOutcome.raises ("boom".toList))).shown
      = [apiErrMsg ("boom".toList), couldNotMsg]
    ∧ (get_key_ideas (some ("body".toList)) ("P {file_text}".toList)
        (fun _ => RemoteOutcome.returns ("no markers here".toList))).retVal
      = (get_key_ideas (some ("body".toList)) ("P {file_text}".toList)
        (fun _ => RemoteOutcome.raises ("boom".toList))).retVal := by
  exact ⟨rfl, rfl, rfl⟩

/-- Claim C7 as amended: on a response with no delimited payload the
orchestrator returns `None` and shows only the generic failure message; a
failing remote call produces the same `None` return and the same generic
message, preceded additionally by an API error message.  The two conditions
are therefore distinguishable only by the presence of that extra API
message, not by any parse-specific report or by the returned value. -/
theorem c7_amended_no_distinct_parse_error (t prompt raw m : List Char)
    (h : parseResponse raw = none) :
    (homeExtractRun (some t) prompt (fun _ => RemoteOutcome.returns raw)).shown
      = [couldNotMsg]
    ∧ (get_key_ideas (some t) prompt (fun _ => RemoteOutcome.returns raw)).retVal
      = Except.ok none
    ∧ (homeExtractRun (some t) prompt (fun _ => RemoteOutcome.raises m)).shown
      = [apiErrMsg m, couldNotMsg]
    ∧ (get_key_ideas (some t) prompt (fun _ => RemoteOutcome.raises m)).retVal
      = Except.ok none := by
  refine ⟨?_, ?_, rfl, rfl⟩
  · simp [homeExtractRun, get_key_ideas, h]
  · simp [get_key_ideas, h]

/-- Witness for the amended C7 at a concrete marker-free response. -/
theorem c7_witness :
    parseResponse ("nothing".toList) = none
    ∧ (homeExtractRun (some ("T".toList)) ("P".toList)
        (fun _ => RemoteOutcome.returns ("nothing".toList))).shown = [couldNotMsg] :=
  ⟨by decide, (c7_amended_no_distinct_parse_error ("T".toList) ("P".toList)
    ("nothing".toList) ("m".toList) (by decide)).1⟩

/-- Claim C8: for the plain-text media type, extraction returns exactly the
UTF-8 decoding of the raw bytes when they are valid UTF-8 (i.e. when they are
the UTF-8 encoding of some string), and returns no text at all exactly when
they are not: Python `bytes.decode("utf-8")` either succeeds in full or
raises `UnicodeDecodeError`, which the handler turns into a `None` result —
never a partial or truncated string. -/
theorem c8_txt_extraction_iff_utf8 (bs : List Nat) :
    (∀ s, process_file_txt bs = some s ↔ utf8Encode s = bs)
    ∧ (process_file_txt bs = none ↔ ∀ s, utf8Encode s ≠ bs) := by
  constructor
  · intro s
    constructor
    · exact fun h => utf8Encode_of_decode h
    · intro h
      rw [← h]
      exact utf8Decode_encode s
  · constructor
    · intro hnone s henc
      have hsome := utf8Decode_encode s
      rw [henc] at hsome
      have hnone' : utf8Decode bs = none := hnone
      rw [hnone'] at hsome
      exact Option.noConfusion hsome
    · intro hall
      cases hd : process_file_txt bs with
      | none => rfl
      | some s => exact absurd (utf8Encode_of_decode hd) (hall s)
